import Mathlib

/-!
Shallow embedding of `src/smart_leftovers_app.py` (SmartRecipie).

The Python program recommends recipes by TF-IDF cosine similarity.  We embed
the pure core: `clean_ingredient`, `is_veg_recipe`, the TF-IDF vectorizer
(sklearn `TfidfVectorizer` with its defaults: token pattern `\b\w\w+\b`,
smooth idf `ln((1+n)/(1+df)) + 1`, L2 row normalisation), sklearn
`cosine_similarity`, pandas `sort_values(ascending=False)` / `head`, and the
result composition loop of `smart_suggest`, plus the tab-1 button handler's
input parsing.

Modelling conventions:
- Python strings are `String` (lists of characters); `str.lower`, `str.strip`,
  `str.title` and the regexes `[^a-z\s]`, `\s+` are modelled over the ASCII
  range (`\s` as the six ASCII whitespace characters).  All of this
  program's normalisation claims live inside ASCII.
- floats are `ℝ` (so no rounding error is modelled); `round(x, 3)` is
  `round (x*1000) / 1000`.
- the pandas dataframe is a list of recipe rows plus an optional score
  column (`Df`); `df['score'] = ...` is the functional update of that column.
- `vectorizer` (the fitted `TfidfVectorizer`) is determined by the list of
  fitted documents, so the embedded state carries that list (`fitDocs`).
- sklearn's vocabulary is sorted alphabetically; we keep first-occurrence
  order instead.  Cosine similarities are invariant under any fixed
  reindexing of the vocabulary, so every claim here is unaffected.
- `DataFrame.sort_values(by="score", ascending=False)` is modelled by
  pandas' `nargsort` construction: reverse the rows, argsort ascending with
  a stable sort, reverse the result.  pandas' default sort kind is
  `quicksort` (numpy introsort), which coincides with a stable sort only up
  to numpy's small-array insertion-sort cutoff (16 elements); see the C3
  discussion in the theorems below.
-/

/-! ### Python string primitives (ASCII model) -/

/-- Python regex `\s` / `str.strip` whitespace, ASCII range. -/
def isWS (c : Char) : Bool :=
  c = ' ' || c = '\t' || c = '\n' || c = '\x0d' || c = '\x0b' || c = '\x0c'

/-- A lowercase ASCII letter, i.e. the character class `[a-z]`. -/
def isLowerAZ (c : Char) : Bool := 'a' ≤ c && c ≤ 'z'

/-- An ASCII letter (used by `str.title`'s word boundaries). -/
def isAlphaAZ (c : Char) : Bool := ('a' ≤ c && c ≤ 'z') || ('A' ≤ c && c ≤ 'Z')

/-- `str.lower`, per character (ASCII model). -/
def pyLowerChar (c : Char) : Char :=
  if 'A' ≤ c ∧ c ≤ 'Z' then Char.ofNat (c.toNat + 32) else c

/-- `str.upper`, per character (ASCII model). -/
def pyUpperChar (c : Char) : Char :=
  if 'a' ≤ c ∧ c ≤ 'z' then Char.ofNat (c.toNat - 32) else c

/-- The characters kept by `re.sub(r'[^a-z\s]', '', _)`: `[a-z]` and `\s`. -/
def keepChar (c : Char) : Bool := isLowerAZ c || isWS c

/-- `re.sub(r'\s+', ' ', _)`: replace each maximal whitespace run by one
space.  The boolean records whether we are inside a run already handled. -/
def collapseWS : Bool → List Char → List Char
  | _, [] => []
  | inRun, c :: cs =>
    if isWS c then
      if inRun then collapseWS true cs else ' ' :: collapseWS true cs
    else c :: collapseWS false cs

/-- `str.strip()` on a character list: drop leading and trailing whitespace. -/
def pyStripChars (l : List Char) : List Char :=
  ((l.dropWhile isWS).reverse.dropWhile isWS).reverse

/-- `str.strip()`. -/
def pyStrip (s : String) : String := ⟨pyStripChars s.data⟩

/-- `str.title()` (ASCII model): uppercase each letter that follows a
non-letter, lowercase every other letter. -/
def pyTitleChars : Bool → List Char → List Char
  | _, [] => []
  | prevAlpha, c :: cs =>
    (if isAlphaAZ c then (if prevAlpha then pyLowerChar c else pyUpperChar c) else c)
      :: pyTitleChars (isAlphaAZ c) cs

/-- `str.title()`. -/
def pyTitle (s : String) : String := ⟨pyTitleChars false s.data⟩

/-- Python's `needle in hay` substring test on strings. -/
def pyIn (needle hay : String) : Bool := decide (needle.data <:+: hay.data)

/-- Split a character list on a separator character.  On the empty list the
result is `[[]]`, matching Python's `"".split(",") == [""]`. -/
def splitOnChar (sep : Char) : List Char → List (List Char)
  | [] => [[]]
  | c :: cs =>
    if c = sep then [] :: splitOnChar sep cs
    else
      match splitOnChar sep cs with
      | [] => [[c]]
      | r :: rs => (c :: r) :: rs

/-- Python `s.split(sep)` for a one-character separator (the source only
splits on `","` and the vectorizer's token boundaries are single spaces). -/
def pySplit (sep : Char) (s : String) : List String :=
  (splitOnChar sep s.data).map (fun l => ⟨l⟩)

/-! ### `clean_ingredient` (source lines 47–51) -/

/-- The character-level pipeline of `clean_ingredient`: lowercase, drop the
characters outside `[a-z\s]`, collapse whitespace runs, strip. -/
def cleanChars (l : List Char) : List Char :=
  pyStripChars (collapseWS false ((l.map pyLowerChar).filter keepChar))

/-- Embedding of
```python
def clean_ingredient(ing):
    ing = ing.lower()
    ing = re.sub(r'[^a-z\s]', '', ing)
    ing = re.sub(r'\s+', ' ', ing)
    return ing.strip()
``` -/
def clean_ingredient (s : String) : String := ⟨cleanChars s.data⟩

/-- A character `clean_ingredient` can emit: a lowercase letter or `' '`. -/
def GoodChar (c : Char) : Prop := isLowerAZ c = true ∨ c = ' '

/-- Two adjacent characters are not both whitespace. -/
def wsRel (a b : Char) : Prop := ¬(isWS a = true ∧ isWS b = true)

/-- The first character, if any, is not whitespace. -/
def HeadNotWS (l : List Char) : Prop := ∀ c, l.head? = some c → isWS c = false

/-- The last character, if any, is not whitespace. -/
def LastNotWS (l : List Char) : Prop := ∀ c, l.getLast? = some c → isWS c = false

/-! ### `is_veg_recipe` (source lines 54–55) and the keyword list (line 101) -/

/-- Embedding of
```python
def is_veg_recipe(ingredients, non_veg_keywords):
    return not any(any(word in ing for word in non_veg_keywords) for ing in ingredients)
```
Note it is applied to the *raw* ingredient strings in `smart_suggest`. -/
def is_veg_recipe (ingredients non_veg_kws : List String) : Bool :=
  ! ingredients.any (fun ing => non_veg_kws.any (fun word => pyIn word ing))

/-- `non_veg_keywords` global (source line 101). -/
def non_veg_keywords : List String :=
  ["chicken", "fish", "mutton", "beef", "egg", "bacon", "meat", "pork", "shrimp", "lamb"]

/-! ### TF-IDF vectorizer (sklearn `TfidfVectorizer()` with defaults) -/

/-- sklearn's default tokenizer `\b\w\w+\b` applied to a cleaned document
(which contains only `[a-z ]`): the space-delimited chunks of length ≥ 2. -/
def tokenize (doc : String) : List String :=
  (pySplit ' ' doc).filter (fun t => 2 ≤ t.length)

/-- The fitted vocabulary: the distinct tokens of the corpus.  (sklearn
orders the vocabulary alphabetically; we keep first-occurrence order, which
permutes vector coordinates uniformly and changes no similarity.) -/
def vocab (docs : List String) : List String :=
  (docs.flatMap tokenize).dedup

/-- Term frequency: occurrences of token `t` in document `d`. -/
def tf (t : String) (d : String) : ℕ := (tokenize d).count t

/-- Document frequency: number of corpus documents containing token `t`. -/
def docFreq (docs : List String) (t : String) : ℕ :=
  (docs.filter (fun d => t ∈ tokenize d)).length

/-- sklearn smooth idf: `ln((1 + n) / (1 + df)) + 1`. -/
noncomputable def idf (docs : List String) (t : String) : ℝ :=
  Real.log ((1 + docs.length) / (1 + docFreq docs t)) + 1

/-- Dot product of two coordinate lists (vectors of the tf-idf space). -/
def dot : List ℝ → List ℝ → ℝ
  | x :: xs, y :: ys => x * y + dot xs ys
  | _, _ => 0

/-- sklearn `normalize(..., norm='l2')` on one row: divide by the Euclidean
norm; rows of norm zero are returned unchanged (they are all-zero). -/
noncomputable def l2normalize (v : List ℝ) : List ℝ :=
  if dot v v = 0 then v else v.map (fun x => x / Real.sqrt (dot v v))

/-- The unnormalised tf-idf row of document `d` in the space fitted on
`docs`: one coordinate per vocabulary token.  Tokens of `d` outside the
fitted vocabulary contribute to no coordinate (sklearn ignores them). -/
noncomputable def rawVec (docs : List String) (d : String) : List ℝ :=
  (vocab docs).map (fun t => (tf t d : ℝ) * idf docs t)

/-- `TfidfVectorizer.transform` on a single document. -/
noncomputable def transform (docs : List String) (d : String) : List ℝ :=
  l2normalize (rawVec docs d)

/-- `TfidfVectorizer().fit_transform(docs)`: the document-by-token weight
matrix, one row per document in corpus order (source lines 96–97). -/
noncomputable def fit_transform (docs : List String) : List (List ℝ) :=
  docs.map (transform docs)

/-- sklearn `cosine_similarity` on a pair: both arguments are L2-normalised
(zero rows staying zero) and then dotted. -/
noncomputable def cosSim (u v : List ℝ) : ℝ := dot (l2normalize u) (l2normalize v)

/-- The ranker (source line 61): one cosine score per matrix row, in row
order — `cosine_similarity(user_vec, tfidf_matrix).flatten()`. -/
noncomputable def rank (user_vec : List ℝ) (matrix : List (List ℝ)) : List ℝ :=
  matrix.map (fun row => cosSim user_vec row)

/-! ### Data model: recipes, dataframe, application state -/

/-- A corpus record: `id`, `cuisine`, ordered raw ingredient strings. -/
structure Recipe where
  id : Int
  cuisine : String
  ingredients : List String
deriving Repr, DecidableEq

/-- The pandas dataframe of `load_data`: the recipe rows plus the `score`
column that `smart_suggest` assigns (absent until the first call). -/
structure Df where
  rows : List Recipe
  score : Option (List ℝ)

/-- The state shared by the app: the dataframe, the fitted tf-idf matrix and
the fitted vectorizer (determined by the documents it was fitted on). -/
structure AppState where
  df : Df
  tfidf_matrix : List (List ℝ)
  fitDocs : List String

/-- One entry of `smart_suggest`'s result list. -/
structure RecommendationResult where
  Name : String
  Cuisine : String
  Matched : List String
  Unmatched : List String
  Score : ℝ

/-- A recipe's `ingredient_text` (source line 95):
`' '.join(clean_ingredient(i) for i in x)`. -/
def ingredientText (ings : List String) : String :=
  String.intercalate " " (ings.map clean_ingredient)

/-- The pure core of `load_data` (source lines 94–98): build the dataframe,
fit the vectorizer on the ingredient texts and keep the tf-idf matrix. -/
noncomputable def build_state (recipes : List Recipe) : AppState :=
  let docs := recipes.map (fun r => ingredientText r.ingredients)
  { df := { rows := recipes, score := none }
    tfidf_matrix := fit_transform docs
    fitDocs := docs }

/-! ### pandas sorting and `head` -/

/-- pandas `DataFrame.sort_values(by="score", ascending=False)` via pandas'
`nargsort`: reverse the rows, argsort ascending with a stable kind, reverse
the resulting order.  Faithful to numpy's default `kind='quicksort'` only up
to its 16-element insertion-sort cutoff, beyond which numpy's introsort can
reorder equal keys (see claim C3). -/
noncomputable def pdSortDesc (l : List (Recipe × ℝ)) : List (Recipe × ℝ) :=
  (List.insertionSort (fun a b => a.2 ≤ b.2) l.reverse).reverse

/-- pandas `DataFrame.head(n)`: the first `n` rows for `n ≥ 0`, and all rows
but the last `|n|` for negative `n`. -/
def pandasHead (n : Int) (l : List α) : List α :=
  if 0 ≤ n then l.take n.toNat else l.take (l.length - (-n).toNat)

/-! ### `smart_suggest` (source lines 58–87) and the tab-1 handler -/

/-- The `user_input` string of source line 59:
`' '.join(clean_ingredient(i) for i in user_ingredients)`. -/
def userInputText (user_ingredients : List String) : String :=
  String.intercalate " " (user_ingredients.map clean_ingredient)

/-- One entry of the result loop (source lines 74–85). -/
noncomputable def composeOne (user_cleaned : List String) (r : Recipe) (score : ℝ) :
    RecommendationResult :=
  let recipe_ings := r.ingredients.map clean_ingredient
  let matched := user_cleaned.filter (fun i => decide (i ∈ recipe_ings))
  let unmatched := recipe_ings.filter (fun i => decide (i ∉ matched))
  { Name := pyTitle r.cuisine ++ " Dish #" ++ toString r.id
    Cuisine := pyTitle r.cuisine
    Matched := matched
    Unmatched := unmatched
    Score := round (score * 1000) / 1000 }

/-- Embedding of `smart_suggest` (source lines 58–87).  The score column
assignment `df['score'] = cosine_similarities` is the functional update of
the dataframe, which is returned alongside the results so that the caller's
dataframe after the call is visible (claim C9). -/
noncomputable def smart_suggest (user_ingredients : List String) (st : AppState)
    (top_n : Int) (is_veg : Bool) (max_ings : Int) :
    List RecommendationResult × AppState :=
  let user_input := userInputText user_ingredients
  let user_vec := transform st.fitDocs user_input
  let cosine_similarities := rank user_vec st.tfidf_matrix
  let df' : Df := { st.df with score := some cosine_similarities }
  let scored := df'.rows.zip cosine_similarities
  let lenFiltered := scored.filter (fun p => decide ((p.1.ingredients.length : Int) ≤ max_ings))
  let df_filtered :=
    if is_veg then lenFiltered.filter (fun p => is_veg_recipe p.1.ingredients non_veg_keywords)
    else lenFiltered
  let top_recipes := pandasHead top_n (pdSortDesc df_filtered)
  let user_cleaned := user_ingredients.map clean_ingredient
  (top_recipes.map (fun p => composeOne user_cleaned p.1 p.2), { st with df := df' })

/-- The tab-1 button handler (source lines 115–127): split the text box on
commas, strip each field, keep the non-empty ones; with no ingredient left,
error out (`st.error`, modelled as `none`); otherwise call `smart_suggest`
with `top_n=5`. -/
noncomputable def tab1_handler (user_input : String) (st : AppState)
    (is_veg : Bool) (max_ings : Int) : Option (List RecommendationResult) :=
  let user_ingredients := ((pySplit ',' user_input).map pyStrip).filter (fun t => t ≠ "")
  if user_ingredients ≠ [] then some (smart_suggest user_ingredients st 5 is_veg max_ings).1
  else none

/-! ### Helper lemmas: sorting, head, pipeline shape -/

theorem pdSortDesc_perm (l : List (Recipe × ℝ)) : List.Perm (pdSortDesc l) l := by
  unfold pdSortDesc
  exact ((List.reverse_perm _).trans (List.perm_insertionSort _ _)).trans (List.reverse_perm _)

theorem pdSortDesc_length (l : List (Recipe × ℝ)) : (pdSortDesc l).length = l.length :=
  (pdSortDesc_perm l).length_eq

theorem pdSortDesc_mem {x : Recipe × ℝ} {l : List (Recipe × ℝ)} (h : x ∈ pdSortDesc l) :
    x ∈ l := (pdSortDesc_perm l).mem_iff.1 h

theorem pdSortDesc_singleton (x : Recipe × ℝ) : pdSortDesc [x] = [x] := by
  simp [pdSortDesc, List.insertionSort, List.orderedInsert]

theorem pandasHead_subset (n : Int) (l : List α) : pandasHead n l ⊆ l := by
  unfold pandasHead
  split <;> exact List.take_subset _ _

theorem pandasHead_nil (n : Int) : pandasHead n ([] : List α) = [] := by
  unfold pandasHead; split <;> simp

theorem pandasHead_zero (l : List α) : pandasHead 0 l = [] := by
  simp [pandasHead]

theorem pandasHead_pos_singleton {n : Int} (hn : 0 < n) (x : α) : pandasHead n [x] = [x] := by
  unfold pandasHead
  rw [if_pos hn.le]
  obtain ⟨m, hm⟩ := Nat.exists_eq_succ_of_ne_zero (n := n.toNat) (by omega)
  rw [hm]
  simp

/-- Every composed result arises from a row of the filtered, scored list. -/
theorem smart_suggest_mem {q : List String} {st : AppState} {tn mi : Int} {veg : Bool}
    {r : RecommendationResult} (hr : r ∈ (smart_suggest q st tn veg mi).1) :
    ∃ p : Recipe × ℝ, p.1 ∈ st.df.rows ∧
      ((p.1.ingredients.length : Int) ≤ mi) ∧
      (veg = true → is_veg_recipe p.1.ingredients non_veg_keywords = true) ∧
      r = composeOne (q.map clean_ingredient) p.1 p.2 := by
  simp only [smart_suggest] at hr
  rw [List.mem_map] at hr
  obtain ⟨p, hp, rfl⟩ := hr
  have hp2 := pdSortDesc_mem (pandasHead_subset _ _ hp)
  by_cases hv : veg = true
  · rw [if_pos hv] at hp2
    obtain ⟨hp4, hveg⟩ := List.mem_filter.1 hp2
    obtain ⟨hp5, hlen⟩ := List.mem_filter.1 hp4
    exact ⟨p, (List.of_mem_zip hp5).1, by simpa using hlen, fun _ => hveg, rfl⟩
  · rw [if_neg hv] at hp2
    obtain ⟨hp5, hlen⟩ := List.mem_filter.1 hp2
    exact ⟨p, (List.of_mem_zip hp5).1, by simpa using hlen, fun h => absurd h hv, rfl⟩

/-- Shape of `smart_suggest` on a one-recipe state whose row passes both
filters: exactly one result, composed from that recipe. -/
theorem smart_suggest_single (q : List String) (r : Recipe) (v : List ℝ)
    (d : List String) (sc : Option (List ℝ)) {tn mi : Int} (veg : Bool)
    (htn : 0 < tn) (hmi : (r.ingredients.length : Int) ≤ mi)
    (hveg : veg = true → is_veg_recipe r.ingredients non_veg_keywords = true) :
    (smart_suggest q ⟨⟨[r], sc⟩, [v], d⟩ tn veg mi).1 =
      [composeOne (q.map clean_ingredient) r
        (cosSim (transform d (userInputText q)) v)] := by
  simp only [smart_suggest, rank, List.map_cons, List.map_nil, List.zip_cons_cons,
    List.zip_nil_right]
  rw [List.filter_cons_of_pos (by simpa using hmi), List.filter_nil]
  have hfin : (if veg = true
      then List.filter (fun p => is_veg_recipe p.1.ingredients non_veg_keywords)
        [(r, cosSim (transform d (userInputText q)) v)]
      else [(r, cosSim (transform d (userInputText q)) v)]) =
      [(r, cosSim (transform d (userInputText q)) v)] := by
    rcases veg with _ | _
    · simp
    · rw [if_pos rfl, List.filter_cons_of_pos (by simpa using hveg rfl), List.filter_nil]
  rw [hfin, pdSortDesc_singleton, pandasHead_pos_singleton htn]
  rfl

/-! ### Concrete fixtures used by witnesses and counterexamples -/

/-- A one-recipe corpus whose only ingredient differs from the keyword
`"egg"` in case alone. -/
def eggRecipe : Recipe := ⟨1, "test", ["Egg"]⟩

/-- Its cleaned document text (`ingredient_text` column). -/
def eggDoc : String := ingredientText eggRecipe.ingredients

/-- The app state `load_data` would build on that corpus. -/
noncomputable def stEgg : AppState := build_state [eggRecipe]

/-- The single result `smart_suggest ["egg"] … veg-only` produces there. -/
noncomputable def resEgg : RecommendationResult :=
  composeOne (["egg"].map clean_ingredient) eggRecipe
    (cosSim (transform [eggDoc] (userInputText ["egg"])) (transform [eggDoc] eggDoc))

theorem stEgg_eq :
    stEgg = ⟨⟨[eggRecipe], none⟩, [transform [eggDoc] eggDoc], [eggDoc]⟩ := by
  simp [stEgg, build_state, fit_transform, eggDoc]

theorem resEgg_runs : (smart_suggest ["egg"] stEgg 5 true 10).1 = [resEgg] := by
  rw [stEgg_eq]
  exact smart_suggest_single ["egg"] eggRecipe _ _ _ true (by norm_num) (by decide)
    (fun _ => by decide)

/-! ### Claim C10 -/

/-- C10: a recipe with an empty ingredient list is classified vegetarian by
`is_veg_recipe` (vacuously) for every keyword set, and its length-0
ingredient count passes the `max_ings` filter for every non-negative
threshold, so neither filter of `smart_suggest` excludes it. -/
theorem empty_recipe_never_filtered (kws : List String) (m : Int) (hm : 0 ≤ m)
    (r : Recipe) (hr : r.ingredients = []) :
    is_veg_recipe r.ingredients kws = true ∧ ((r.ingredients.length : Int) ≤ m) := by
  rw [hr]
  exact ⟨rfl, by simpa using hm⟩

theorem empty_recipe_never_filtered_witness :
    is_veg_recipe (Recipe.mk 7 "x" []).ingredients non_veg_keywords = true ∧
    (((Recipe.mk 7 "x" []).ingredients.length : Int) ≤ 0) :=
  empty_recipe_never_filtered non_veg_keywords 0 (by decide) _ rfl

/-! ### Claim C1 -/

/-- C1 (amended): the vegetarian filter works on the RAW ingredient strings,
not the normalized ones.  (1) `is_veg_recipe` accepts exactly when no raw
ingredient contains any configured keyword as a substring; (2) every result
`smart_suggest` returns in veg-only mode comes from a corpus recipe all of
whose raw ingredients avoid every keyword.  A recipe whose raw ingredient
differs from a keyword only in case (e.g. `"Egg"`) is NOT rejected — see the
counterexample. -/
theorem veg_filter_uses_raw_ingredients :
    (∀ ings kws : List String, is_veg_recipe ings kws = true ↔
      ∀ ing ∈ ings, ∀ w ∈ kws, ¬ (w.data <:+: ing.data)) ∧
    (∀ (q : List String) (st : AppState) (tn mi : Int) (r : RecommendationResult),
      r ∈ (smart_suggest q st tn true mi).1 →
      ∃ recipe, recipe ∈ st.df.rows ∧
        r.Name = pyTitle recipe.cuisine ++ " Dish #" ++ toString recipe.id ∧
        is_veg_recipe recipe.ingredients non_veg_keywords = true) := by
  constructor
  · intro ings kws
    simp [is_veg_recipe, pyIn]
  · intro q st tn mi r hr
    obtain ⟨p, hrow, _, hveg, rfl⟩ := smart_suggest_mem hr
    exact ⟨p.1, hrow, rfl, hveg rfl⟩

theorem veg_filter_uses_raw_ingredients_witness :
    is_veg_recipe eggRecipe.ingredients non_veg_keywords = true := by
  obtain ⟨recipe, hmem, hname, hveg⟩ :=
    veg_filter_uses_raw_ingredients.2 ["egg"] stEgg 5 10 resEgg
      (by rw [resEgg_runs]; exact List.mem_singleton.2 rfl)
  rw [stEgg_eq] at hmem
  rw [List.mem_singleton.1 hmem] at hveg
  exact hveg

/-- C1 counterexample: the raw ingredient `"Egg"` normalizes to `"egg"`,
which contains the configured keyword `"egg"`, so the claim says the recipe
is rejected; yet veg-only `smart_suggest` returns it. -/
theorem veg_filter_normalized_counterexample :
    clean_ingredient "Egg" = "egg" ∧
    pyIn "egg" (clean_ingredient "Egg") = true ∧
    (smart_suggest ["egg"] stEgg 5 true 10).1.length = 1 := by
  refine ⟨by decide, by decide, ?_⟩
  rw [resEgg_runs]
  rfl

/-! ### Claim C2 -/

/-- C2 (amended): for every result `smart_suggest` composes there is a
source recipe in the corpus such that `Matched` is the sublist of the USER's
normalized ingredients (user order, user multiplicity) that occur among the
recipe's normalized ingredients, and `Unmatched` is the sublist of the
recipe's normalized ingredients (recipe order) that do not occur in
`Matched`.  Membership-wise, `Matched` holds exactly the common normalized
ingredients and `Unmatched` exactly the recipe's normalized ingredients
outside `Matched` — but the two lists partition the RECIPE's list neither in
order (Matched follows user order) nor in multiplicity (see
counterexample). -/
theorem composer_matched_unmatched (q : List String) (st : AppState)
    (tn mi : Int) (veg : Bool) (r : RecommendationResult)
    (hr : r ∈ (smart_suggest q st tn veg mi).1) :
    ∃ recipe, recipe ∈ st.df.rows ∧
      r.Matched.Sublist (q.map clean_ingredient) ∧
      (∀ x, x ∈ r.Matched ↔
        (x ∈ q.map clean_ingredient ∧ x ∈ recipe.ingredients.map clean_ingredient)) ∧
      r.Unmatched.Sublist (recipe.ingredients.map clean_ingredient) ∧
      (∀ x, x ∈ r.Unmatched ↔
        (x ∈ recipe.ingredients.map clean_ingredient ∧ x ∉ r.Matched)) := by
  obtain ⟨p, hrow, _, _, rfl⟩ := smart_suggest_mem hr
  refine ⟨p.1, hrow, ?_, ?_, ?_, ?_⟩
  · exact List.filter_sublist _
  · intro x
    constructor
    · intro hx
      have := List.mem_filter.1 hx
      exact ⟨this.1, by simpa using this.2⟩
    · intro hx
      exact List.mem_filter.2 ⟨hx.1, by simpa using hx.2⟩
  · exact List.filter_sublist _
  · intro x
    constructor
    · intro hx
      have := List.mem_filter.1 hx
      exact ⟨this.1, of_decide_eq_true this.2⟩
    · intro hx
      exact List.mem_filter.2 ⟨hx.1, decide_eq_true hx.2⟩

theorem composer_matched_unmatched_witness :
    resEgg.Matched.Sublist (["egg"].map clean_ingredient) := by
  obtain ⟨recipe, _, hsub, _⟩ :=
    composer_matched_unmatched ["egg"] stEgg 5 10 true resEgg
      (by rw [resEgg_runs]; exact List.mem_singleton.2 rfl)
  exact hsub

/-- A one-recipe corpus for the C2 counterexample: the recipe has the single
ingredient `"egg"`, while the user repeats `"egg"` twice. -/
def dupRecipe : Recipe := ⟨2, "test", ["egg"]⟩

/-- Its cleaned document text. -/
def dupDoc : String := ingredientText dupRecipe.ingredients

/-- The app state `load_data` would build on that corpus. -/
noncomputable def stDup : AppState := build_state [dupRecipe]

theorem stDup_eq :
    stDup = ⟨⟨[dupRecipe], none⟩, [transform [dupDoc] dupDoc], [dupDoc]⟩ := by
  simp [stDup, build_state, fit_transform, dupDoc]

/-- C2 counterexample: with user ingredients `["egg", "egg"]` and the
recipe's single normalized ingredient `["egg"]`, the composed result has
`Matched = ["egg", "egg"]` and `Unmatched = []`, which is not a partition of
the recipe's one-element normalized ingredient list (the claim would force
`Matched = ["egg"]`). -/
theorem composer_partition_counterexample :
    ((smart_suggest ["egg", "egg"] stDup 5 false 10).1.map
      (fun r => (r.Matched, r.Unmatched))) = [(["egg", "egg"], [])] ∧
    dupRecipe.ingredients.map clean_ingredient = ["egg"] := by
  constructor
  · rw [stDup_eq,
      smart_suggest_single ["egg", "egg"] dupRecipe _ _ _ false (by norm_num) (by decide)
        (fun h => by cases h)]
    rfl
  · rfl

/-! ### Claim C5 -/

theorem pdSortDesc_nil : pdSortDesc [] = [] := by
  simp [pdSortDesc, List.insertionSort]

/-- C5 (amended): a negative `max_ings` or a zero `top_n` yields an empty
result list.  Merely non-positive values do not: `max_ings = 0` keeps
recipes with empty ingredient lists, and a negative `top_n` is pandas
`head(-k)` — all but the last `k` accepted rows — which can be non-empty
(see the counterexample). -/
theorem degenerate_params_empty (q : List String) (st : AppState) (tn mi : Int)
    (veg : Bool) (h : mi < 0 ∨ tn = 0) : (smart_suggest q st tn veg mi).1 = [] := by
  rcases h with h | h
  · simp only [smart_suggest]
    have hnil : (st.df.rows.zip (rank (transform st.fitDocs (userInputText q))
        st.tfidf_matrix)).filter (fun p => decide ((p.1.ingredients.length : Int) ≤ mi))
        = [] := by
      refine List.filter_eq_nil_iff.2 fun a _ => ?_
      simp only [decide_eq_true_eq]
      intro hle
      have : (0 : Int) ≤ (a.1.ingredients.length : Int) := by positivity
      omega
    rw [hnil]
    rcases veg with _ | _ <;> simp [pdSortDesc_nil, pandasHead_nil]
  · rw [h]
    simp only [smart_suggest, pandasHead_zero, List.map_nil]

theorem degenerate_params_empty_witness :
    (smart_suggest ["egg"] stEgg 7 true (-1)).1 = [] :=
  degenerate_params_empty ["egg"] stEgg 7 (-1) true (Or.inl (by norm_num))

/-- A recipe with no ingredients (so `len(ingredients) = 0 ≤ 0`). -/
def emptyIngRecipe : Recipe := ⟨3, "plain", []⟩

/-- Its cleaned document text (the empty string). -/
def emptyDoc : String := ingredientText emptyIngRecipe.ingredients

/-- The app state on that one-recipe corpus. -/
noncomputable def stEmptyIng : AppState := build_state [emptyIngRecipe]

theorem stEmptyIng_eq :
    stEmptyIng = ⟨⟨[emptyIngRecipe], none⟩, [transform [emptyDoc] emptyDoc], [emptyDoc]⟩ := by
  simp [stEmptyIng, build_state, fit_transform, emptyDoc]

/-- A two-recipe corpus (both accepted by the filters). -/
def pairRecipeA : Recipe := ⟨1, "aa", ["milk"]⟩

/-- Second recipe of the two-recipe corpus. -/
def pairRecipeB : Recipe := ⟨2, "bb", ["rice"]⟩

/-- Cleaned document of `pairRecipeA`. -/
def pairDocA : String := ingredientText pairRecipeA.ingredients

/-- Cleaned document of `pairRecipeB`. -/
def pairDocB : String := ingredientText pairRecipeB.ingredients

/-- The app state on the two-recipe corpus. -/
noncomputable def stPair : AppState := build_state [pairRecipeA, pairRecipeB]

theorem stPair_eq :
    stPair = ⟨⟨[pairRecipeA, pairRecipeB], none⟩,
      [transform [pairDocA, pairDocB] pairDocA, transform [pairDocA, pairDocB] pairDocB],
      [pairDocA, pairDocB]⟩ := by
  simp [stPair, build_state, fit_transform, pairDocA, pairDocB]

/-- C5 counterexample: (a) `max_ings = 0` (non-positive) still returns the
zero-ingredient recipe; (b) `top_n = -1` (negative) on a two-recipe corpus
returns one result, not zero — pandas `head(-1)` drops only the last row. -/
theorem nonpositive_params_counterexample :
    (smart_suggest ["egg"] stEmptyIng 5 false 0).1 ≠ [] ∧
    (smart_suggest ["egg"] stPair (-1) false 10).1.length = 1 := by
  constructor
  · rw [stEmptyIng_eq,
      smart_suggest_single ["egg"] emptyIngRecipe _ _ _ false (by norm_num) (by decide)
        (fun h => by cases h)]
    simp
  · rw [stPair_eq]
    simp only [smart_suggest, rank, List.map_cons, List.map_nil, List.zip_cons_cons,
      List.zip_nil_right]
    rw [if_neg (by simp)]
    rw [List.filter_cons_of_pos (by decide), List.filter_cons_of_pos (by decide),
      List.filter_nil]
    rw [List.length_map]
    rw [pandasHead, if_neg (by norm_num), List.length_take, pdSortDesc_length]
    rfl

/-! ### Claim C9 -/

/-- C9 (amended): `smart_suggest` leaves the TF-IDF matrix, the fitted
vectorizer and the recipe rows unchanged, but it DOES mutate the dataframe:
`df['score'] = cosine_similarities` assigns the score column, so the
dataframe after the call carries a score column. -/
theorem smart_suggest_frame (q : List String) (st : AppState) (tn mi : Int) (veg : Bool) :
    (smart_suggest q st tn veg mi).2.tfidf_matrix = st.tfidf_matrix ∧
    (smart_suggest q st tn veg mi).2.fitDocs = st.fitDocs ∧
    (smart_suggest q st tn veg mi).2.df.rows = st.df.rows ∧
    ((smart_suggest q st tn veg mi).2.df.score).isSome = true :=
  ⟨rfl, rfl, rfl, rfl⟩

/-- C9 counterexample: on a freshly loaded state (score column absent) the
state after a `smart_suggest` call differs from the state before it — the
dataframe has gained the score column. -/
theorem smart_suggest_mutates_df :
    (smart_suggest ["egg"] stEgg 5 true 10).2 ≠ stEgg := by
  intro h
  have h2 : ((smart_suggest ["egg"] stEgg 5 true 10).2.df.score) = stEgg.df.score := by
    rw [h]
  rw [stEgg_eq] at h2
  simp only [smart_suggest] at h2
  exact Option.noConfusion h2

/-! ### Vector lemmas: dot products, normalisation, cosine bounds -/

theorem dot_nil_left (v : List ℝ) : dot [] v = 0 := by cases v <;> simp [dot]

theorem dot_nil_right (u : List ℝ) : dot u [] = 0 := by cases u <;> simp [dot]

theorem dot_self_nonneg (v : List ℝ) : 0 ≤ dot v v := by
  induction v with
  | nil => simp [dot]
  | cons x xs ih => have := mul_self_nonneg x; rw [dot]; linarith

theorem dot_nonneg {u v : List ℝ} (hu : ∀ x ∈ u, 0 ≤ x) (hv : ∀ x ∈ v, 0 ≤ x) :
    0 ≤ dot u v := by
  induction u generalizing v with
  | nil => simp [dot_nil_left]
  | cons x xs ih =>
    cases v with
    | nil => simp [dot_nil_right]
    | cons y ys =>
      rw [dot]
      have h1 := mul_nonneg (hu x (by simp)) (hv y (by simp))
      have h2 := ih (fun a ha => hu a (List.mem_cons_of_mem _ ha))
        (fun a ha => hv a (List.mem_cons_of_mem _ ha))
      linarith

theorem dot_zero_left {u : List ℝ} (v : List ℝ) (hu : ∀ x ∈ u, x = 0) : dot u v = 0 := by
  induction u generalizing v with
  | nil => exact dot_nil_left v
  | cons x xs ih =>
    cases v with
    | nil => exact dot_nil_right _
    | cons y ys =>
      rw [dot, hu x (by simp), ih ys (fun a ha => hu a (List.mem_cons_of_mem _ ha))]
      ring

theorem dot_zero_right (u : List ℝ) {v : List ℝ} (hv : ∀ x ∈ v, x = 0) : dot u v = 0 := by
  induction v generalizing u with
  | nil => exact dot_nil_right u
  | cons y ys ih =>
    cases u with
    | nil => exact dot_nil_left _
    | cons x xs =>
      rw [dot, hv y (by simp), ih xs (fun a ha => hv a (List.mem_cons_of_mem _ ha))]
      ring

theorem eq_zero_of_dot_self {v : List ℝ} (h : dot v v = 0) : ∀ x ∈ v, x = 0 := by
  induction v with
  | nil => simp
  | cons x xs ih =>
    rw [dot] at h
    have h1 := mul_self_nonneg x
    have h2 := dot_self_nonneg xs
    have hx : x * x = 0 := by linarith
    have hxs : dot xs xs = 0 := by linarith
    intro a ha
    rcases List.mem_cons.1 ha with rfl | ha
    · exact mul_self_eq_zero.1 hx
    · exact ih hxs a ha

theorem dot_eq_sum (u v : List ℝ) :
    dot u v = ∑ i ∈ Finset.range (min u.length v.length), u.getD i 0 * v.getD i 0 := by
  induction u generalizing v with
  | nil => simp [dot_nil_left]
  | cons x xs ih =>
    cases v with
    | nil => simp [dot_nil_right]
    | cons y ys =>
      rw [dot, ih ys, List.length_cons, List.length_cons, Nat.succ_min_succ,
        Finset.sum_range_succ']
      simp only [List.getD_cons_succ, List.getD_cons_zero]
      ring

theorem dot_le_sqrt_mul_sqrt (u v : List ℝ) :
    dot u v ≤ Real.sqrt (dot u u) * Real.sqrt (dot v v) := by
  have key : ∀ w : List ℝ, ∑ i ∈ Finset.range (min u.length v.length), (w.getD i 0) ^ 2
      ≤ dot w w := by
    intro w
    rcases le_total (min u.length v.length) w.length with hw | hw
    · rw [dot_eq_sum w w, min_self]
      refine le_trans (le_of_eq (Finset.sum_congr rfl fun i _ => pow_two _))
        (Finset.sum_le_sum_of_subset_of_nonneg (Finset.range_subset.2 hw) ?_)
      intro i _ _
      exact mul_self_nonneg _
    · refine le_of_eq ?_
      calc ∑ i ∈ Finset.range (min u.length v.length), (w.getD i 0) ^ 2
          = ∑ i ∈ Finset.range (min u.length v.length), w.getD i 0 * w.getD i 0 :=
            Finset.sum_congr rfl fun i _ => pow_two _
        _ = ∑ i ∈ Finset.range w.length, w.getD i 0 * w.getD i 0 :=
            (Finset.sum_subset (Finset.range_subset.2 hw) fun i _ hni => by
              rw [List.getD_eq_default _ _ (by simpa using hni)]; ring).symm
        _ = dot w w := by rw [dot_eq_sum w w, min_self]
  calc dot u v = ∑ i ∈ Finset.range (min u.length v.length), u.getD i 0 * v.getD i 0 :=
        dot_eq_sum u v
    _ ≤ |∑ i ∈ Finset.range (min u.length v.length), u.getD i 0 * v.getD i 0| := le_abs_self _
    _ = Real.sqrt ((∑ i ∈ Finset.range (min u.length v.length),
          u.getD i 0 * v.getD i 0) ^ 2) := (Real.sqrt_sq_eq_abs _).symm
    _ ≤ Real.sqrt ((∑ i ∈ Finset.range (min u.length v.length), (u.getD i 0) ^ 2) *
          (∑ i ∈ Finset.range (min u.length v.length), (v.getD i 0) ^ 2)) :=
        Real.sqrt_le_sqrt (Finset.sum_mul_sq_le_sq_mul_sq _ _ _)
    _ = Real.sqrt (∑ i ∈ Finset.range (min u.length v.length), (u.getD i 0) ^ 2) *
          Real.sqrt (∑ i ∈ Finset.range (min u.length v.length), (v.getD i 0) ^ 2) :=
        Real.sqrt_mul (Finset.sum_nonneg fun i _ => sq_nonneg _) _
    _ ≤ Real.sqrt (dot u u) * Real.sqrt (dot v v) :=
        mul_le_mul (Real.sqrt_le_sqrt (key u)) (Real.sqrt_le_sqrt (key v))
          (Real.sqrt_nonneg _) (Real.sqrt_nonneg _)

theorem dot_map_div (u v : List ℝ) (c : ℝ) :
    dot (u.map (fun x => x / c)) (v.map (fun x => x / c)) = dot u v / (c * c) := by
  induction u generalizing v with
  | nil => simp [dot_nil_left]
  | cons x xs ih =>
    cases v with
    | nil => simp [dot_nil_right]
    | cons y ys =>
      simp only [List.map_cons]
      rw [dot, dot, ih ys, div_mul_div_comm, div_add_div_same]

theorem l2normalize_of_dot_zero {v : List ℝ} (h : dot v v = 0) : l2normalize v = v := by
  simp [l2normalize, h]

theorem dot_l2normalize_self (v : List ℝ) :
    dot (l2normalize v) (l2normalize v) = if dot v v = 0 then 0 else 1 := by
  by_cases h : dot v v = 0
  · rw [if_pos h, l2normalize_of_dot_zero h, h]
  · rw [if_neg h, l2normalize, if_neg h, dot_map_div,
      Real.mul_self_sqrt (dot_self_nonneg v), div_self h]

theorem l2normalize_nonneg {v : List ℝ} (hv : ∀ x ∈ v, 0 ≤ x) :
    ∀ x ∈ l2normalize v, 0 ≤ x := by
  intro x hx
  unfold l2normalize at hx
  split at hx
  · exact hv x hx
  · obtain ⟨y, hy, rfl⟩ := List.mem_map.1 hx
    exact div_nonneg (hv y hy) (Real.sqrt_nonneg _)

theorem cosSim_le_one (u v : List ℝ) : cosSim u v ≤ 1 := by
  unfold cosSim
  refine le_trans (dot_le_sqrt_mul_sqrt _ _) ?_
  rw [dot_l2normalize_self, dot_l2normalize_self]
  by_cases h1 : dot u u = 0 <;> by_cases h2 : dot v v = 0 <;>
    simp [h1, h2, Real.sqrt_one, Real.sqrt_zero]

theorem cosSim_nonneg {u v : List ℝ} (hu : ∀ x ∈ u, 0 ≤ x) (hv : ∀ x ∈ v, 0 ≤ x) :
    0 ≤ cosSim u v :=
  dot_nonneg (l2normalize_nonneg hu) (l2normalize_nonneg hv)

theorem cosSim_zero_left {u : List ℝ} (v : List ℝ) (hu : ∀ x ∈ u, x = 0) :
    cosSim u v = 0 := by
  unfold cosSim
  rw [l2normalize_of_dot_zero (dot_zero_left u hu)]
  exact dot_zero_left _ hu

theorem cosSim_zero_right (u : List ℝ) {v : List ℝ} (hv : ∀ x ∈ v, x = 0) :
    cosSim u v = 0 := by
  unfold cosSim
  rw [l2normalize_of_dot_zero (dot_zero_right v hv)]
  exact dot_zero_right _ hv

theorem cosSim_self_eq_one {v : List ℝ} (h : dot v v ≠ 0) : cosSim v v = 1 := by
  unfold cosSim
  rw [dot_l2normalize_self, if_neg h]

/-! ### TF-IDF weights are non-negative -/

theorem idf_nonneg (docs : List String) (t : String) : 0 ≤ idf docs t := by
  unfold idf
  have hdf : (docFreq docs t : ℝ) ≤ (docs.length : ℝ) := by
    exact_mod_cast List.length_filter_le _ _
  have h1 : (1 : ℝ) ≤ (1 + docs.length) / (1 + docFreq docs t) := by
    rw [le_div_iff₀ (by positivity), one_mul]
    linarith
  have := Real.log_nonneg h1
  linarith

theorem rawVec_nonneg (docs : List String) (d : String) : ∀ x ∈ rawVec docs d, 0 ≤ x := by
  intro x hx
  obtain ⟨t, _, rfl⟩ := List.mem_map.1 hx
  exact mul_nonneg (Nat.cast_nonneg _) (idf_nonneg docs t)

theorem transform_nonneg (docs : List String) (d : String) :
    ∀ x ∈ transform docs d, 0 ≤ x :=
  l2normalize_nonneg (rawVec_nonneg docs d)

theorem cosSim_nil_right (u : List ℝ) : cosSim u [] = 0 := by
  unfold cosSim
  rw [l2normalize_of_dot_zero (dot_nil_left [])]
  exact dot_nil_right _

/-! ### Claim C6 -/

/-- C6: on the fitted corpus matrix, the ranker returns exactly one score
per corpus row; the `i`-th score is the cosine similarity of the query
vector with the `i`-th row (corpus order); every score lies in `[0, 1]`
(TF-IDF weights are non-negative); and whenever the query vector or a row
vector is all-zero, that pair's score is `0`. -/
theorem ranker_row_scores (docs : List String) (q : String) :
    (rank (transform docs q) (fit_transform docs)).length = (fit_transform docs).length ∧
    (∀ i : ℕ, (rank (transform docs q) (fit_transform docs)).getD i 0 =
      cosSim (transform docs q) ((fit_transform docs).getD i [])) ∧
    (∀ s ∈ rank (transform docs q) (fit_transform docs), 0 ≤ s ∧ s ≤ 1) ∧
    (∀ i : ℕ,
      ((∀ x ∈ transform docs q, x = 0) ∨
        (∀ x ∈ (fit_transform docs).getD i [], x = 0)) →
      (rank (transform docs q) (fit_transform docs)).getD i 0 = 0) := by
  have hgd : ∀ i : ℕ, (rank (transform docs q) (fit_transform docs)).getD i 0 =
      cosSim (transform docs q) ((fit_transform docs).getD i []) := by
    intro i
    by_cases hi : i < (fit_transform docs).length
    · rw [List.getD_eq_getElem _ _ (by simpa [rank] using hi),
        List.getD_eq_getElem _ _ hi]
      simp [rank]
    · rw [List.getD_eq_default _ _ (by simpa [rank] using le_of_not_lt hi),
        List.getD_eq_default _ _ (le_of_not_lt hi)]
      exact (cosSim_nil_right _).symm
  refine ⟨by simp [rank], hgd, ?_, ?_⟩
  · intro s hs
    obtain ⟨row, hrow, rfl⟩ := List.mem_map.1 hs
    obtain ⟨d, _, rfl⟩ := List.mem_map.1 hrow
    exact ⟨cosSim_nonneg (transform_nonneg docs q) (transform_nonneg docs d),
      cosSim_le_one _ _⟩
  · intro i h
    rw [hgd i]
    rcases h with h | h
    · exact cosSim_zero_left _ h
    · exact cosSim_zero_right _ h

theorem ranker_row_scores_witness :
    (rank (transform ["a"] "xy") (fit_transform ["a"])).length = 1 ∧
    (rank (transform ["a"] "xy") (fit_transform ["a"])).getD 0 0 = 0 := by
  obtain ⟨h1, _, _, h4⟩ := ranker_row_scores ["a"] "xy"
  have hvocab : vocab ["a"] = [] := by decide
  have hrow : (fit_transform ["a"]).getD 0 [] = [] := by
    show (List.map (transform ["a"]) ["a"]).getD 0 [] = []
    rw [List.map_cons, List.map_nil, List.getD_cons_zero]
    show l2normalize (rawVec ["a"] "a") = []
    rw [rawVec, hvocab, List.map_nil]
    exact l2normalize_of_dot_zero (dot_nil_left [])
  constructor
  · rw [h1]; simp [fit_transform]
  · exact h4 0 (Or.inr (by rw [hrow]; simp))

/-! ### Claim C7 -/

/-- C7: if the user's normalized query text equals the `i`-th corpus
recipe's full normalized ingredient document (and the corpus has no
duplicate documents), then the `i`-th similarity score is the maximum over
all corpus rows: every row's score is bounded by row `i`'s. -/
theorem exact_query_scores_max (docs : List String) (q : List String) (i : ℕ)
    (hi : i < docs.length) (hq : userInputText q = docs.get ⟨i, hi⟩)
    (_hnd : docs.Nodup) (j : ℕ) :
    (rank (transform docs (userInputText q)) (fit_transform docs)).getD j 0 ≤
    (rank (transform docs (userInputText q)) (fit_transform docs)).getD i 0 := by
  have h2 := (ranker_row_scores docs (userInputText q)).2.1
  rw [h2 i, h2 j]
  have hmi : (fit_transform docs).getD i [] = transform docs (userInputText q) := by
    have hlen : i < (fit_transform docs).length := by simpa [fit_transform] using hi
    rw [List.getD_eq_getElem _ _ hlen]
    show (docs.map (transform docs))[i] = _
    rw [List.getElem_map, hq]
    rfl
  rw [hmi]
  set v := transform docs (userInputText q) with hv
  by_cases hz : dot v v = 0
  · have hvz : ∀ x ∈ v, x = 0 := eq_zero_of_dot_self hz
    rw [cosSim_zero_left _ hvz, cosSim_zero_left _ hvz]
  · rw [cosSim_self_eq_one hz]
    exact cosSim_le_one _ _

theorem exact_query_scores_max_witness :
    userInputText ["milk", "egg"] = "milk egg" ∧
    (rank (transform ["milk egg"] (userInputText ["milk", "egg"]))
      (fit_transform ["milk egg"])).getD 0 0 ≤
    (rank (transform ["milk egg"] (userInputText ["milk", "egg"]))
      (fit_transform ["milk egg"])).getD 0 0 :=
  ⟨by decide,
    exact_query_scores_max ["milk egg"] ["milk", "egg"] 0 (by decide) (by decide)
      (by decide) 0⟩

/-! ### Claim C4 -/

/-- C4 (amended): the query is rejected before any scoring (handler errors
out) exactly when every comma-separated field of the text box strips to the
empty string.  Fields that survive `str.strip` but normalize to the empty
string under `clean_ingredient` (e.g. digits-only) are NOT rejected: they
are scored against the corpus (see the counterexample, where the returned
score is the zero-similarity noise the spec warns about). -/
theorem handler_rejects_iff (s : String) (st : AppState) (veg : Bool) (mi : Int) :
    tab1_handler s st veg mi = none ↔ ∀ t ∈ pySplit ',' s, pyStrip t = "" := by
  unfold tab1_handler
  by_cases hc : ((pySplit ',' s).map pyStrip).filter (fun t => decide (t ≠ "")) = []
  · rw [if_neg (not_not_intro hc)]
    have hall : ∀ t ∈ pySplit ',' s, pyStrip t = "" := by
      intro t ht
      have := List.filter_eq_nil_iff.1 hc (pyStrip t) (List.mem_map_of_mem pyStrip ht)
      simpa using this
    exact ⟨fun _ => hall, fun _ => rfl⟩
  · rw [if_pos hc]
    constructor
    · intro h
      exact absurd h (by simp)
    · intro hall
      exfalso
      obtain ⟨a, ha⟩ := List.exists_mem_of_ne_nil _ hc
      obtain ⟨ha1, ha2⟩ := List.mem_filter.1 ha
      obtain ⟨t, ht, rfl⟩ := List.mem_map.1 ha1
      exact (of_decide_eq_true ha2) (hall t ht)

/-- C4 counterexample: the input `"123"` survives the handler's
strip-and-drop check (it is not whitespace), even though its single
ingredient normalizes to the empty string; the core then computes a
zero-similarity score against the corpus and returns a result rather than
rejecting before scoring. -/
theorem letter_free_query_not_rejected :
    pyStrip "123" = "123" ∧
    clean_ingredient "123" = "" ∧
    (tab1_handler "123" stEgg false 10).isSome = true ∧
    ((tab1_handler "123" stEgg false 10).getD []).map (fun r => r.Score) = [0] := by
  have hparse : ((pySplit ',' "123").map pyStrip).filter (fun t => decide (t ≠ ""))
      = ["123"] := by decide
  have hsome : tab1_handler "123" stEgg false 10 =
      some ((smart_suggest ["123"] stEgg 5 false 10).1) := by
    unfold tab1_handler
    rw [hparse, if_pos (by decide)]
  refine ⟨by decide, by decide, ?_, ?_⟩
  · rw [hsome]; rfl
  · rw [hsome]
    show ((smart_suggest ["123"] stEgg 5 false 10).1).map (fun r => r.Score) = [0]
    rw [stEgg_eq, smart_suggest_single ["123"] eggRecipe _ _ _ false (by norm_num)
      (by decide) (fun h => by cases h)]
    have huser : userInputText ["123"] = "" := by decide
    have htok : tokenize "" = [] := by decide
    have hq0 : ∀ x ∈ rawVec [eggDoc] "", x = 0 := by
      intro x hx
      obtain ⟨t, _, rfl⟩ := List.mem_map.1 hx
      have h0 : tf t "" = 0 := by rw [tf, htok]; rfl
      rw [h0]
      simp
    have hv0 : ∀ x ∈ transform [eggDoc] "", x = 0 := by
      rw [transform, l2normalize_of_dot_zero (dot_zero_left _ hq0)]
      exact hq0
    have hscore : cosSim (transform [eggDoc] (userInputText ["123"]))
        (transform [eggDoc] eggDoc) = 0 := by
      rw [huser]
      exact cosSim_zero_left _ hv0
    simp [composeOne, hscore]

/-! ### Claim C3 -/

theorem pdSortDesc_pair_eq (a b : Recipe × ℝ) (h : a.2 = b.2) :
    pdSortDesc [a, b] = [a, b] := by
  simp only [pdSortDesc, List.reverse_cons, List.reverse_nil, List.nil_append,
    List.cons_append, List.insertionSort, List.orderedInsert]
  rw [if_pos (le_of_eq h.symm)]
  rfl

theorem pdSortDesc_pair_same (r1 r2 : Recipe) (s : ℝ) :
    pdSortDesc [(r1, s), (r2, s)] = [(r1, s), (r2, s)] :=
  pdSortDesc_pair_eq _ _ rfl

/-- C3 (scenario, in the stable-sort model): on a corpus of two recipes
identical except for their id, any query scores both equally and the
composed output lists them in corpus order (lower index first).  The model
reproduces pandas' `nargsort` reverse/stable-argsort/reverse construction;
numpy's actual default `kind='quicksort'` only guarantees this below its
16-element insertion-sort cutoff — see the C3 notes. -/
theorem tie_preserves_corpus_order (c : String) (ings : List String) (q : List String)
    (hlen : (ings.length : Int) ≤ 10) :
    ((smart_suggest q (build_state [⟨1, c, ings⟩, ⟨2, c, ings⟩]) 5 false 10).1.map
      (fun r => r.Name)) =
      [pyTitle c ++ " Dish #" ++ toString (1 : Int),
       pyTitle c ++ " Dish #" ++ toString (2 : Int)] := by
  have hst : build_state [(⟨1, c, ings⟩ : Recipe), ⟨2, c, ings⟩] =
      ⟨⟨[⟨1, c, ings⟩, ⟨2, c, ings⟩], none⟩,
        [transform [ingredientText ings, ingredientText ings] (ingredientText ings),
         transform [ingredientText ings, ingredientText ings] (ingredientText ings)],
        [ingredientText ings, ingredientText ings]⟩ := by
    simp [build_state, fit_transform]
  rw [hst]
  simp only [smart_suggest, rank, List.map_cons, List.map_nil, List.zip_cons_cons,
    List.zip_nil_right]
  rw [if_neg (by simp)]
  have h10 : ings.length ≤ 10 := by exact_mod_cast hlen
  have hfil : ∀ (x y : ℝ),
      List.filter (fun p => decide ((p.1.ingredients.length : Int) ≤ 10))
        [((⟨1, c, ings⟩ : Recipe), x), ((⟨2, c, ings⟩ : Recipe), y)]
      = [((⟨1, c, ings⟩ : Recipe), x), ((⟨2, c, ings⟩ : Recipe), y)] := by
    intro x y
    simp [List.filter_cons, h10]
  rw [hfil]
  rw [pdSortDesc_pair_same]
  rw [pandasHead, if_pos (by norm_num)]
  rfl

theorem tie_preserves_corpus_order_witness :
    ((smart_suggest ["milk"] (build_state [⟨1, "aa", ["milk"]⟩, ⟨2, "aa", ["milk"]⟩])
      5 false 10).1.map (fun r => r.Name)) = ["Aa Dish #1", "Aa Dish #2"] := by
  rw [tie_preserves_corpus_order "aa" ["milk"] ["milk"] (by decide)]
  rfl

/-! ### Claim C8: the normalizer is idempotent -/

theorem ws_cases {c : Char} (h : isWS c = true) :
    c = ' ' ∨ c = '\t' ∨ c = '\n' ∨ c = '\x0d' ∨ c = '\x0b' ∨ c = '\x0c' := by
  simp [isWS] at h
  tauto

theorem not_lower_of_ws {c : Char} (h : isWS c = true) : isLowerAZ c = false := by
  rcases ws_cases h with rfl | rfl | rfl | rfl | rfl | rfl <;> decide

theorem good_space {c : Char} (hg : GoodChar c) (h : isWS c = true) : c = ' ' := by
  rcases hg with hl | rfl
  · rw [not_lower_of_ws h] at hl
    cases hl
  · rfl

theorem pyLower_fixed_of_good {c : Char} (h : GoodChar c) : pyLowerChar c = c := by
  rcases h with hl | rfl
  · have h1 : ('a' : Char) ≤ c := by
      simp only [isLowerAZ, Bool.and_eq_true, decide_eq_true_eq] at hl
      exact hl.1
    rw [pyLowerChar, if_neg]
    rintro ⟨-, h2⟩
    exact absurd (le_trans h1 h2) (by decide)
  · rw [pyLowerChar, if_neg]
    rintro ⟨h1, -⟩
    exact absurd h1 (by decide)

theorem keep_of_good {c : Char} (h : GoodChar c) : keepChar c = true := by
  rcases h with hl | rfl
  · simp [keepChar, hl]
  · decide

theorem map_pyLower_fixed {l : List Char} (h : ∀ c ∈ l, GoodChar c) :
    l.map pyLowerChar = l := by
  induction l with
  | nil => rfl
  | cons c cs ih =>
    rw [List.map_cons, pyLower_fixed_of_good (h c (by simp)),
      ih (fun a ha => h a (List.mem_cons_of_mem _ ha))]

theorem filter_keep_fixed {l : List Char} (h : ∀ c ∈ l, GoodChar c) :
    l.filter keepChar = l :=
  List.filter_eq_self.2 fun c hc => keep_of_good (h c hc)

theorem collapseWS_nil (b : Bool) : collapseWS b [] = [] := rfl

theorem collapseWS_cons_ws_true {c : Char} {cs : List Char} (h : isWS c = true) :
    collapseWS true (c :: cs) = collapseWS true cs := by
  simp [collapseWS, h]

theorem collapseWS_cons_ws_false {c : Char} {cs : List Char} (h : isWS c = true) :
    collapseWS false (c :: cs) = ' ' :: collapseWS true cs := by
  simp [collapseWS, h]

theorem collapseWS_cons_not_ws (b : Bool) {c : Char} {cs : List Char} (h : isWS c = false) :
    collapseWS b (c :: cs) = c :: collapseWS false cs := by
  simp [collapseWS, h]

theorem head_collapseWS_true : ∀ (l : List Char) (c : Char),
    (collapseWS true l).head? = some c → isWS c = false := by
  intro l
  induction l with
  | nil => intro c h; cases h
  | cons a as ih =>
    intro c h
    by_cases ha : isWS a = true
    · rw [collapseWS_cons_ws_true ha] at h
      exact ih c h
    · have ha' : isWS a = false := by simpa using ha
      rw [collapseWS_cons_not_ws true ha', List.head?_cons] at h
      injection h with h
      subst h
      exact ha'

theorem collapseWS_noAdj : ∀ (l : List Char) (b : Bool),
    List.Chain' wsRel (collapseWS b l) := by
  intro l
  induction l with
  | nil => intro b; rw [collapseWS_nil]; exact List.chain'_nil
  | cons a as ih =>
    intro b
    by_cases ha : isWS a = true
    · cases b with
      | true =>
        rw [collapseWS_cons_ws_true ha]
        exact ih true
      | false =>
        rw [collapseWS_cons_ws_false ha]
        refine List.chain'_cons'.2 ⟨?_, ih true⟩
        intro y hy
        intro hcontra
        rw [head_collapseWS_true as y (Option.mem_def.1 hy)] at hcontra
        exact absurd hcontra.2 (by simp)
    · have ha' : isWS a = false := by simpa using ha
      rw [collapseWS_cons_not_ws b ha']
      refine List.chain'_cons'.2 ⟨?_, ih false⟩
      intro y _
      intro hcontra
      rw [ha'] at hcontra
      exact absurd hcontra.1 (by simp)

theorem collapseWS_chars : ∀ (l : List Char) (b : Bool),
    (∀ c ∈ l, keepChar c = true) → ∀ c ∈ collapseWS b l, GoodChar c := by
  intro l
  induction l with
  | nil => intro b _ c hc; rw [collapseWS_nil] at hc; cases hc
  | cons a as ih =>
    intro b hall c hc
    by_cases ha : isWS a = true
    · cases b with
      | true =>
        rw [collapseWS_cons_ws_true ha] at hc
        exact ih true (fun x hx => hall x (List.mem_cons_of_mem _ hx)) c hc
      | false =>
        rw [collapseWS_cons_ws_false ha] at hc
        rcases List.mem_cons.1 hc with rfl | hc
        · exact Or.inr rfl
        · exact ih true (fun x hx => hall x (List.mem_cons_of_mem _ hx)) c hc
    · have ha' : isWS a = false := by simpa using ha
      rw [collapseWS_cons_not_ws b ha'] at hc
      rcases List.mem_cons.1 hc with rfl | hc
      · have hk := hall c (by simp)
        rw [keepChar, ha', Bool.or_false] at hk
        exact Or.inl hk
      · exact ih false (fun x hx => hall x (List.mem_cons_of_mem _ hx)) c hc

theorem collapseWS_fixed : ∀ (l : List Char) (b : Bool),
    (∀ c ∈ l, GoodChar c) → List.Chain' wsRel l → (b = true → HeadNotWS l) →
    collapseWS b l = l := by
  intro l
  induction l with
  | nil => intro b _ _ _; exact collapseWS_nil b
  | cons a as ih =>
    intro b hg hadj hb
    by_cases ha : isWS a = true
    · have ha' : a = ' ' := good_space (hg a (by simp)) ha
      cases b with
      | true =>
        have hcontra := (hb rfl) a rfl
        rw [ha] at hcontra
        cases hcontra
      | false =>
        rw [collapseWS_cons_ws_false ha]
        have htail : collapseWS true as = as := by
          refine ih true (fun x hx => hg x (List.mem_cons_of_mem _ hx))
            (List.Chain'.tail hadj) (fun _ => ?_)
          intro c hc
          cases as with
          | nil => cases hc
          | cons a2 as2 =>
            rw [List.head?_cons] at hc
            injection hc with hc
            subst hc
            have hrel := (List.chain'_cons.1 hadj).1
            by_contra hws
            exact hrel ⟨ha, by simpa using hws⟩
        rw [htail, ha']
    · have ha' : isWS a = false := by simpa using ha
      rw [collapseWS_cons_not_ws b ha',
        ih false (fun x hx => hg x (List.mem_cons_of_mem _ hx))
          (List.Chain'.tail hadj) (fun h => by cases h)]

theorem head_dropWhile_not : ∀ (l : List Char) (c : Char),
    ((l.dropWhile isWS).head? = some c) → isWS c = false := by
  intro l
  induction l with
  | nil => intro c h; cases h
  | cons a as ih =>
    intro c h
    by_cases ha : isWS a = true
    · rw [List.dropWhile_cons_of_pos ha] at h
      exact ih c h
    · rw [List.dropWhile_cons_of_neg ha, List.head?_cons] at h
      injection h with h
      subst h
      simpa using ha

theorem dropWhile_eq_self_of_head {l : List Char} (h : HeadNotWS l) :
    l.dropWhile isWS = l := by
  cases l with
  | nil => rfl
  | cons a as =>
    have ha := h a rfl
    rw [List.dropWhile_cons_of_neg (by simp [ha])]

theorem pyStripChars_fixed {l : List Char} (hh : HeadNotWS l) (hl : LastNotWS l) :
    pyStripChars l = l := by
  unfold pyStripChars
  rw [dropWhile_eq_self_of_head hh]
  have hrev : HeadNotWS l.reverse := by
    intro c hc
    rw [List.head?_reverse] at hc
    exact hl c hc
  rw [dropWhile_eq_self_of_head hrev, List.reverse_reverse]

theorem mem_pyStripChars {l : List Char} : ∀ c ∈ pyStripChars l, c ∈ l := by
  intro c hc
  unfold pyStripChars at hc
  rw [List.mem_reverse] at hc
  have h2 : c ∈ (l.dropWhile isWS).reverse := (List.dropWhile_sublist _).subset hc
  rw [List.mem_reverse] at h2
  exact (List.dropWhile_sublist _).subset h2

theorem pyStripChars_noAdj {l : List Char} (h : List.Chain' wsRel l) :
    List.Chain' wsRel (pyStripChars l) := by
  unfold pyStripChars
  have hsymm : ∀ (x : List Char), List.Chain' wsRel x → List.Chain' (flip wsRel) x :=
    fun x hx => hx.imp fun a b hab => fun hc => hab ⟨hc.2, hc.1⟩
  have h1 : List.Chain' wsRel (l.dropWhile isWS) := h.suffix (List.dropWhile_suffix _)
  have h2 : List.Chain' wsRel (l.dropWhile isWS).reverse :=
    List.chain'_reverse.2 (hsymm _ h1)
  have h3 : List.Chain' wsRel ((l.dropWhile isWS).reverse.dropWhile isWS) :=
    h2.suffix (List.dropWhile_suffix _)
  exact List.chain'_reverse.2 (hsymm _ h3)

theorem pyStripChars_head (l : List Char) : HeadNotWS (pyStripChars l) := by
  intro c hc
  unfold pyStripChars at hc
  rw [List.head?_reverse] at hc
  obtain ⟨t, ht⟩ := List.dropWhile_suffix (l := (l.dropWhile isWS).reverse) isWS
  have hlast : (l.dropWhile isWS).reverse.getLast? = some c := by
    rw [← ht, List.getLast?_append, hc]
    rfl
  rw [List.getLast?_reverse] at hlast
  exact head_dropWhile_not l c hlast

theorem pyStripChars_last (l : List Char) : LastNotWS (pyStripChars l) := by
  intro c hc
  unfold pyStripChars at hc
  rw [List.getLast?_reverse] at hc
  exact head_dropWhile_not _ c hc

theorem cleanChars_good (l : List Char) : ∀ c ∈ cleanChars l, GoodChar c := by
  intro c hc
  have hc2 := mem_pyStripChars c hc
  exact collapseWS_chars _ false (fun x hx => List.of_mem_filter hx) c hc2

theorem cleanChars_noAdj (l : List Char) : List.Chain' wsRel (cleanChars l) :=
  pyStripChars_noAdj (collapseWS_noAdj _ false)

theorem cleanChars_head (l : List Char) : HeadNotWS (cleanChars l) :=
  pyStripChars_head _

theorem cleanChars_last (l : List Char) : LastNotWS (cleanChars l) :=
  pyStripChars_last _

theorem cleanChars_idem (l : List Char) : cleanChars (cleanChars l) = cleanChars l := by
  have hg := cleanChars_good l
  show pyStripChars (collapseWS false (((cleanChars l).map pyLowerChar).filter keepChar))
    = cleanChars l
  rw [map_pyLower_fixed hg, filter_keep_fixed hg,
    collapseWS_fixed _ false hg (cleanChars_noAdj l) (fun h => by cases h),
    pyStripChars_fixed (cleanChars_head l) (cleanChars_last l)]

/-- C8: `clean_ingredient` is idempotent — applying it to its own output
changes nothing, for every input string. -/
theorem clean_ingredient_idempotent (s : String) :
    clean_ingredient (clean_ingredient s) = clean_ingredient s := by
  show (⟨cleanChars (cleanChars s.data)⟩ : String) = ⟨cleanChars s.data⟩
  rw [cleanChars_idem]
